import Mathlib

/-!
Verification of the modern-cms-single content pipeline.

This development gives a shallow embedding of the pure core of the
repository's GitHub-to-store synchronization engine:

* `scripts/recursive-sync.ts` — slug derivation from file paths and the
  insert-or-update (upsert) loop over fetched MDX files;
* `src/lib/mdx-parser.ts` — front-matter validation, heading extraction,
  word counting, reading time, and title slug generation;
* `src/app/api/webhooks/github/[tenantId]/route.ts` — the webhook
  endpoint: signature verification and event dispatch;
* `TEMPLATE_github_webhook.ts` — the draft webhook pipeline's branch
  filter and changed-file extraction;
* the `GitHubSyncService` template — SHA-based change detection and the
  per-file sync loop.

JavaScript string operations are modelled on `List Char`:
`String.prototype.replace` with a string pattern replaces only the first
occurrence, `Map.get` returns `undefined` (here `Option`), and truthiness
(`""`, `0`, `false`, `null` are falsy) is modelled explicitly.
-/

namespace Cms

/-- JavaScript whitespace (`\s`), restricted to the ASCII range plus NBSP;
all characters produced or tested by this code base are ASCII. -/
def isJsSpace (c : Char) : Bool :=
  c = ' ' || c = '\t' || c = '\n' || c = '\r' ||
  c = Char.ofNat 11 || c = Char.ofNat 12 || c = Char.ofNat 160

/-- `str.replace(pat, repl)` with a string pattern: replace the first
occurrence of `pat` only (JavaScript semantics). -/
def replaceFirstL (pat repl : List Char) : List Char → List Char
  | [] => []
  | c :: cs =>
    if pat.isPrefixOf (c :: cs) then repl ++ (c :: cs).drop pat.length
    else c :: replaceFirstL pat repl cs

/-- String wrapper for `replaceFirstL`. -/
def jsReplaceFirst (pat repl s : String) : String :=
  ⟨replaceFirstL pat.data repl.data s.data⟩

/-- `str.startsWith(p)`. -/
def jsStartsWith (p s : String) : Bool := p.data.isPrefixOf s.data

/-- `str.endsWith(p)`. -/
def jsEndsWith (p s : String) : Bool := p.data.isSuffixOf s.data

/-- `str.trim()` — strip leading and trailing whitespace. -/
def jsTrimL (l : List Char) : List Char :=
  ((l.dropWhile isJsSpace).reverse.dropWhile isJsSpace).reverse

/-- Lowercase a character as `String.prototype.toLowerCase` does on the
ASCII range used by this code base. -/
def jsToLowerChar (c : Char) : Char :=
  if 'A' ≤ c ∧ c ≤ 'Z' then Char.ofNat (c.toNat + 32) else c

/-- Is the character kept by `replace(/[^a-z0-9\s]/g, '')` (after
lowercasing): a lowercase letter, a digit, or whitespace? -/
def isSlugKeep (c : Char) : Bool :=
  ('a' ≤ c && c ≤ 'z') || ('0' ≤ c && c ≤ '9') || isJsSpace c

/-- `replace(/\s+/g, '-')`: collapse every maximal whitespace run into a
single hyphen.  The boolean argument records whether the previous
character was part of a whitespace run. -/
def collapseSpacesAux : Bool → List Char → List Char
  | _, [] => []
  | inRun, c :: cs =>
    if isJsSpace c then
      if inRun then collapseSpacesAux true cs
      else '-' :: collapseSpacesAux true cs
    else c :: collapseSpacesAux false cs

/-- `replace(/\s+/g, '-')` on a character list. -/
def collapseSpaces (l : List Char) : List Char := collapseSpacesAux false l

/-- `generateSlug` from `src/lib/mdx-parser.ts`:
`title.toLowerCase().replace(/[^a-z0-9\s]/g, '').replace(/\s+/g, '-').trim()`.
The same pipeline computes heading anchor slugs in `extractHeadings`. -/
def generateSlug (title : String) : String :=
  ⟨jsTrimL (collapseSpaces ((title.data.map jsToLowerChar).filter isSlugKeep))⟩

/-! ### Front-matter values

Front-matter data comes out of the YAML parser as a JavaScript object.
The value model below covers scalars and arrays of scalars — every shape
the validator's typed fields inspect; `undefined` cannot occur in parsed
front-matter, so every stored value is a real value. -/

/-- A scalar JavaScript value as produced by the YAML front-matter parser. -/
inductive JSAtom where
  | str (s : String)
  | num (n : Int)
  | bool (b : Bool)
  | null
  deriving DecidableEq, Repr

/-- A JavaScript front-matter value: a scalar or an array of scalars. -/
inductive JSValue where
  | atom (a : JSAtom)
  | arr (elems : List JSAtom)
  deriving DecidableEq, Repr

/-- Shorthand for a string value. -/
def JSValue.str (s : String) : JSValue := .atom (.str s)

/-- Shorthand for a number value. -/
def JSValue.num (n : Int) : JSValue := .atom (.num n)

/-- Shorthand for a boolean value. -/
def JSValue.bool (b : Bool) : JSValue := .atom (.bool b)

/-- JavaScript truthiness: `""`, `0`, `false` and `null` are falsy;
every array (even empty) is truthy. -/
def JSValue.truthy : JSValue → Bool
  | .atom (.str s) => !(s == "")
  | .atom (.num n) => !(n == 0)
  | .atom (.bool b) => b
  | .atom .null => false
  | .arr _ => true

/-- `String(v)` for a scalar. -/
def JSAtom.jsString : JSAtom → String
  | .str s => s
  | .num n => toString n
  | .bool b => if b then "true" else "false"
  | .null => "null"

/-- `String(v)`: scalars print directly; an array prints as its elements
joined by commas, where `Array.prototype.join` renders `null` as the
empty string. -/
def JSValue.jsString : JSValue → String
  | .atom a => a.jsString
  | .arr xs =>
    String.intercalate "," (xs.map fun a => if a = .null then "" else a.jsString)

/-- Property read `obj[k]` on an object modelled as an association list
(JavaScript object keys are unique, so first-match lookup is exact). -/
def assocGet (data : List (String × JSValue)) (k : String) : Option JSValue :=
  (data.find? fun p => p.1 == k).map (·.2)

/-- `k in obj` membership test on the association-list object model. -/
def hasKey (l : List (String × JSValue)) (k : String) : Bool :=
  l.any fun p => p.1 == k

/-- One typed-string field of `validateFrontmatter`:
`if (dataObj.k && typeof dataObj.k === 'string') validated.k = dataObj.k`.
A string is truthy exactly when it is non-empty; the result is the
assignment the step performs, if any. -/
def fieldString (data : List (String × JSValue)) (k : String) :
    Option (String × JSValue) :=
  match assocGet data k with
  | some (.atom (.str s)) => if s ≠ "" then some (k, .str s) else none
  | _ => none

/-- Is `v` one of the three legal `status` strings?  Mirrors
`['draft', 'published', 'archived'].includes(v)`, which uses strict
equality and so can only accept strings. -/
def validStatus (v : JSValue) : Bool :=
  v == .str "draft" || v == .str "published" || v == .str "archived"

/-- Is `v` one of the three legal `accessLevel` strings? -/
def validAccessLevel (v : JSValue) : Bool :=
  v == .str "public" || v == .str "private" || v == .str "premium"

/-- The `date` step: any truthy value is kept, converted with `String()`
when it is not already a string. -/
def fieldDate (data : List (String × JSValue)) : Option (String × JSValue) :=
  match assocGet data "date" with
  | some v =>
    if v.truthy then
      some ("date", .str (match v with | .atom (.str s) => s | _ => v.jsString))
    else none
  | none => none

/-- The `tags` step: an array keeps exactly its string elements. -/
def fieldTags (data : List (String × JSValue)) : Option (String × JSValue) :=
  match assocGet data "tags" with
  | some (.arr xs) =>
    some ("tags", .arr (xs.filter fun a => match a with | .str _ => true | _ => false))
  | _ => none

/-- The `status` enum step. -/
def fieldStatus (data : List (String × JSValue)) : Option (String × JSValue) :=
  match assocGet data "status" with
  | some v => if v.truthy && validStatus v then some ("status", v) else none
  | none => none

/-- The `accessLevel` enum step. -/
def fieldAccessLevel (data : List (String × JSValue)) : Option (String × JSValue) :=
  match assocGet data "accessLevel" with
  | some v => if v.truthy && validAccessLevel v then some ("accessLevel", v) else none
  | none => none

/-- The `featured` step: a `typeof === 'boolean'` check, no truthiness. -/
def fieldFeatured (data : List (String × JSValue)) : Option (String × JSValue) :=
  match assocGet data "featured" with
  | some (.atom (.bool b)) => some ("featured", .bool b)
  | _ => none

/-- The typed-field section of `validateFrontmatter`
(`src/lib/mdx-parser.ts` lines 202–243).  Each source statement appends
its own assignment (when its guard holds) to `validated` without reading
the accumulator, so the section equals the in-order concatenation of the
per-field assignments. -/
def typedFields (data : List (String × JSValue)) : List (String × JSValue) :=
  [fieldString data "title", fieldString data "description",
   fieldString data "author", fieldString data "category",
   fieldString data "image", fieldString data "slug",
   fieldDate data, fieldTags data, fieldStatus data,
   fieldAccessLevel data, fieldFeatured data].reduceOption

/-- The custom-field pass-through of `validateFrontmatter` (lines
246–250): `Object.keys(dataObj).forEach(key => { if (!(key in validated)
&& dataObj[key] !== undefined) validated[key] = dataObj[key] })`.
In the value model no stored value is `undefined`, so that guard is
always satisfied. -/
def copyFold (acc data : List (String × JSValue)) : List (String × JSValue) :=
  data.foldl (fun acc p => if hasKey acc p.1 then acc else acc ++ [p]) acc

/-- `validateFrontmatter` from `src/lib/mdx-parser.ts` (lines 191–253):
the typed-field section followed by the custom-field pass-through. -/
def validateFrontmatter (data : List (String × JSValue)) :
    List (String × JSValue) :=
  copyFold (typedFields data) data

/-- The eleven field names given dedicated handling by
`validateFrontmatter`; every other key is a custom field. -/
def recognizedKeys : List String :=
  ["title", "description", "author", "category", "image", "slug",
   "date", "tags", "status", "accessLevel", "featured"]

/-- Slug derivation of `scripts/recursive-sync.ts` (lines 130–141):
strip the first `contents/`, strip the first `.mdx`, then, when the
result ends in `/index`, remove the first occurrence of `/index`;
an empty result becomes `index`. -/
def deriveSlug (path : String) : String :=
  let s1 := jsReplaceFirst "contents/" "" path
  let s2 := jsReplaceFirst ".mdx" "" s1
  let s3 := if jsEndsWith "/index" s2 then jsReplaceFirst "/index" "" s2 else s2
  if s3 = "" then "index" else s3

/-! ### Heading extraction, word count, reading time
(`src/lib/mdx-parser.ts`) -/

/-- One heading of the document outline. -/
structure Heading where
  level : Nat
  text : String
  slug : String
  deriving DecidableEq, Repr

/-- Split a character list at every newline (the line decomposition the
`m` regex flag works with). -/
def splitOnNL : List Char → List (List Char)
  | [] => [[]]
  | c :: cs =>
    if c = '\n' then [] :: splitOnNL cs
    else
      match splitOnNL cs with
      | [] => [[c]]
      | l :: ls => (c :: l) :: ls

/-- Is the first character JavaScript whitespace? -/
def headIsSpace : List Char → Bool
  | [] => false
  | c :: _ => isJsSpace c

/-- Match one line against `/^(#{1,6})\s+(.+)$/`: one to six leading `#`
characters (a seventh `#` kills the match), at least one whitespace
character, and at least one further character (so after the `#` run the
line must have length at least two and start with whitespace).  The
heading text is `match[2].trim()`, which equals the trimmed remainder of
the line, and the anchor slug applies the `generateSlug` pipeline to it. -/
def parseHeadingLine (l : List Char) : Option Heading :=
  let hs := l.takeWhile (· = '#')
  let rest := l.dropWhile (· = '#')
  if 1 ≤ hs.length ∧ hs.length ≤ 6 ∧ 2 ≤ rest.length ∧ headIsSpace rest = true then
    some { level := hs.length, text := ⟨jsTrimL rest⟩, slug := generateSlug ⟨jsTrimL rest⟩ }
  else none

/-- `extractHeadings` from `src/lib/mdx-parser.ts` (lines 134–152). -/
def extractHeadings (content : String) : List Heading :=
  (splitOnNL content.data).filterMap parseHeadingLine

/-- Find the first triple-backtick fence and split the list into the part
before it and the part after it. -/
def findFence : List Char → Option (List Char × List Char)
  | [] => none
  | c :: cs =>
    if ['`', '`', '`'].isPrefixOf (c :: cs) then some ([], (c :: cs).drop 3)
    else (findFence cs).map fun p => (c :: p.1, p.2)

theorem findFence_length {l b a : List Char} (h : findFence l = some (b, a)) :
    a.length + 3 ≤ l.length := by
  induction l generalizing b a with
  | nil => simp [findFence] at h
  | cons c cs ih =>
    rw [findFence] at h
    split at h
    · rename_i hp
      have hlen : (3 : Nat) ≤ (c :: cs).length := by
        rw [List.isPrefixOf_iff_prefix] at hp
        simpa using hp.length_le
      simp only [Option.some.injEq, Prod.mk.injEq] at h
      obtain ⟨-, ha⟩ := h
      subst ha
      rw [List.length_drop]
      omega
    · rw [Option.map_eq_some'] at h
      obtain ⟨⟨b', a'⟩, hfa, heq⟩ := h
      simp only [Prod.mk.injEq] at heq
      obtain ⟨-, ha⟩ := heq
      subst ha
      have := ih hfa
      simp only [List.length_cons]
      omega

/-- Fuel-indexed body of `stripCodeBlocks`; by `findFence_length` every
recursive call drops the remaining length by at least six while fuel drops
by one, so fuel equal to the input length never runs out. -/
def stripCodeBlocksFuel : Nat → List Char → List Char
  | 0, l => l
  | fuel + 1, l =>
    match findFence l with
    | none => l
    | some (b1, r1) =>
      match findFence r1 with
      | none => l
      | some (_, r2) => b1 ++ stripCodeBlocksFuel fuel r2

/-- `replace(/```[\s\S]*?```/g, '')`: the lazy regex pairs consecutive
fence occurrences; a fence with no closing partner matches nothing and the
rest of the text is kept verbatim. -/
def stripCodeBlocks (l : List Char) : List Char := stripCodeBlocksFuel l.length l

/-- Drop characters through the next single backtick, returning the
remainder after it. -/
def afterBacktick : List Char → Option (List Char)
  | [] => none
  | c :: cs => if c = '`' then some cs else afterBacktick cs

theorem afterBacktick_length {l r : List Char} (h : afterBacktick l = some r) :
    r.length < l.length := by
  induction l generalizing r with
  | nil => simp [afterBacktick] at h
  | cons c cs ih =>
    rw [afterBacktick] at h
    split at h
    · injection h with h'
      subst h'
      simp
    · have := ih h
      simp only [List.length_cons]
      omega

/-- Fuel-indexed body of `stripInlineCode`; by `afterBacktick_length`
every step consumes at least one character, so fuel equal to the input
length never runs out. -/
def stripInlineCodeFuel : Nat → List Char → List Char
  | 0, l => l
  | _ + 1, [] => []
  | fuel + 1, c :: cs =>
    if c = '`' then
      match afterBacktick cs with
      | some rest => stripInlineCodeFuel fuel rest
      | none => c :: cs
    else c :: stripInlineCodeFuel fuel cs

/-- `replace(/`[^`]*`/g, '')`: remove every pair of consecutive single
backticks together with the text between them; an unpaired backtick
matches nothing. -/
def stripInlineCode (l : List Char) : List Char := stripInlineCodeFuel l.length l

/-- One line under `replace(/^\s*#{1,6}\s+/gm, '')`: strip leading
whitespace, one to six `#` characters and the following whitespace run,
when all three parts are present (a run of seven or more `#` characters
does not match).  The source regex is applied to the whole text with the
`m` flag, where `\s*` may additionally absorb preceding blank lines;
that differs from the per-line model only in whitespace, which the word
counter ignores. -/
def stripHeaderPrefixLine (l : List Char) : List Char :=
  let rest := l.dropWhile isJsSpace
  let hs := rest.takeWhile (· = '#')
  let rest2 := rest.dropWhile (· = '#')
  if 1 ≤ hs.length ∧ hs.length ≤ 6 ∧ headIsSpace rest2 = true then
    rest2.dropWhile isJsSpace
  else l

/-- Split the list at the first `stop` character. -/
def takeUntil (stop : Char) : List Char → Option (List Char × List Char)
  | [] => none
  | c :: cs =>
    if c = stop then some ([], cs)
    else (takeUntil stop cs).map fun p => (c :: p.1, p.2)

theorem takeUntil_length {stop : Char} {l b a : List Char}
    (h : takeUntil stop l = some (b, a)) : a.length < l.length := by
  induction l generalizing b a with
  | nil => simp [takeUntil] at h
  | cons c cs ih =>
    rw [takeUntil] at h
    split at h
    · simp only [Option.some.injEq, Prod.mk.injEq] at h
      obtain ⟨-, ha⟩ := h
      subst ha
      simp
    · rw [Option.map_eq_some'] at h
      obtain ⟨⟨b', a'⟩, hfa, heq⟩ := h
      simp only [Prod.mk.injEq] at heq
      obtain ⟨-, ha⟩ := heq
      subst ha
      have := ih hfa
      simp only [List.length_cons]
      omega

/-- Try to read `text](url)rest` after an opening `[`: the link text is
the (non-empty) run up to the first `]`, which must be followed
immediately by `(`, a non-empty run up to the first `)`, and `)`.
Returns the link text and the remainder after the match. -/
def linkMatch (cs : List Char) : Option (List Char × List Char) :=
  match takeUntil ']' cs with
  | some (txt, r1) =>
    if txt = [] then none
    else
      match r1 with
      | '(' :: r2 =>
        match takeUntil ')' r2 with
        | some (url, r3) => if url = [] then none else some (txt, r3)
        | none => none
      | _ => none
  | none => none

theorem linkMatch_length {cs txt r : List Char} (h : linkMatch cs = some (txt, r)) :
    r.length < cs.length := by
  rw [linkMatch] at h
  split at h
  · rename_i t1 r1 h1
    split at h
    · simp at h
    · split at h
      · rename_i r2
        split at h
        · rename_i url r3 h2
          split at h
          · simp at h
          · simp only [Option.some.injEq, Prod.mk.injEq] at h
            obtain ⟨-, hr⟩ := h
            subst hr
            have l1 := takeUntil_length h1
            have l2 := takeUntil_length h2
            simp only [List.length_cons] at l1
            omega
        · simp at h
      · simp at h
  · simp at h

/-- Fuel-indexed body of `stripLinks`; by `linkMatch_length` every step
consumes at least one character, so fuel equal to the input length never
runs out. -/
def stripLinksFuel : Nat → List Char → List Char
  | 0, l => l
  | _ + 1, [] => []
  | fuel + 1, c :: cs =>
    if c = '[' then
      match linkMatch cs with
      | some (txt, rest) => txt ++ stripLinksFuel fuel rest
      | none => c :: stripLinksFuel fuel cs
    else c :: stripLinksFuel fuel cs

/-- `replace(/\[([^\]]+)\]\([^\)]+\)/g, '$1')`: rewrite every markdown
link to its link text. -/
def stripLinks (l : List Char) : List Char := stripLinksFuel l.length l

/-- A `\w` word character: `[A-Za-z0-9_]`. -/
def isWordChar (c : Char) : Bool :=
  ('a' ≤ c && c ≤ 'z') || ('A' ≤ c && c ≤ 'Z') || ('0' ≤ c && c ≤ '9') || c = '_'

/-- Count maximal runs of characters satisfying `p` (the number of
`\b\w+\b` matches when `p` is `isWordChar`).  The boolean records whether
the previous character was inside a run. -/
def countRunsAux (p : Char → Bool) : Bool → List Char → Nat
  | _, [] => 0
  | prevIn, c :: cs =>
    if p c then
      if prevIn then countRunsAux p true cs else 1 + countRunsAux p true cs
    else countRunsAux p false cs

/-- Count maximal runs of characters satisfying `p`. -/
def countRuns (p : Char → Bool) (l : List Char) : Nat := countRunsAux p false l

/-- A character in one of the three Japanese ranges
`[぀-ゟ゠-ヿ一-龯]`. -/
def isJapaneseChar (c : Char) : Bool :=
  (0x3040 ≤ c.toNat && c.toNat ≤ 0x309F) ||
  (0x30A0 ≤ c.toNat && c.toNat ≤ 0x30FF) ||
  (0x4E00 ≤ c.toNat && c.toNat ≤ 0x9FAF)

/-- A markdown formatting character removed by `replace(/[*_~`]/g, '')`. -/
def isMdFormatChar (c : Char) : Bool :=
  c = '*' || c = '_' || c = '~' || c = '`'

/-- `countWords` from `src/lib/mdx-parser.ts` (lines 167–186): strip code
blocks, inline code, markdown header prefixes, links and formatting
characters, trim, then count `\w+` word runs plus half the number of
Japanese characters.  `Math.round(jp / 2 + en)` over a natural `jp` and
integer `en` equals `en + (jp + 1) / 2` (JavaScript rounds `.5` up). -/
def countWords (text : String) : Nat :=
  let c1 := stripCodeBlocks text.data
  let c2 := stripInlineCode c1
  let c3 := List.intercalate ['\n'] ((splitOnNL c2).map stripHeaderPrefixLine)
  let c4 := stripLinks c3
  let c5 := c4.filter fun c => !(isMdFormatChar c)
  let clean := jsTrimL c5
  let jp := (clean.filter isJapaneseChar).length
  let en := countRuns isWordChar clean
  en + (jp + 1) / 2

/-- `calculateReadingTime` from `src/lib/mdx-parser.ts` (lines 158–162):
`Math.max(1, Math.ceil(wordCount / 200))`; over naturals the ceiling of
`wordCount / 200` is `(wordCount + 199) / 200`. -/
def calculateReadingTime (wordCount : Nat) : Nat :=
  max 1 ((wordCount + 199) / 200)

/-- The pure content of a parsed MDX file. -/
structure ParsedMDX where
  frontmatter : List (String × JSValue)
  content : String
  wordCount : Nat
  readingTime : Nat
  headings : List Heading
  deriving Repr

/-- The pure part of `parseMDXFile` (lines 258–298), applied to the
front-matter data and body produced by the gray-matter split. -/
def parseMDXPure (data : List (String × JSValue)) (content : String) : ParsedMDX :=
  { frontmatter := validateFrontmatter data
    content := content
    wordCount := countWords content
    readingTime := calculateReadingTime (countWords content)
    headings := extractHeadings content }

/-! ### Content store and the upsert of `scripts/recursive-sync.ts` -/

/-- The syncable fields written by the bulk-sync upsert: everything the
`values`/`set` clauses carry except the timestamps. -/
structure Article where
  slug : String
  title : String
  description : String
  content_raw : String
  frontmatter : String
  status : String
  access_level : String
  deriving DecidableEq, Repr

/-- One row of the `contents` table: the syncable fields plus the two
timestamps (`created_at` defaults to the insertion time and is never in
the update set; `updated_at` is refreshed on every conflict update). -/
structure Row where
  article : Article
  created_at : Nat
  updated_at : Nat
  deriving DecidableEq, Repr

/-- The articles table, with its rows in insertion order; the schema
declares `slug` unique, so a well-formed store has at most one row per
slug. -/
def slugCount (store : List Row) (slug : String) : Nat :=
  (store.filter fun r => r.article.slug == slug).length

/-- `db.insert(contents).values({...}).onConflictDoUpdate({ target: slug,
set: {...} })` from `scripts/recursive-sync.ts` (lines 147–168): insert a
fresh row (both timestamps set to the current time by the column
defaults) unless a row with the slug exists, in which case overwrite all
syncable fields of that row and refresh `updated_at` only. -/
def upsertContent (a : Article) (t : Nat) (store : List Row) : List Row :=
  if store.any fun r => r.article.slug == a.slug then
    store.map fun r =>
      if r.article.slug == a.slug then
        { article := a, created_at := r.created_at, updated_at := t }
      else r
  else store ++ [{ article := a, created_at := t, updated_at := t }]

/-- One iteration of the per-file loop of `recursiveSync` (lines
118–177): a successfully fetched and parsed file is upserted and
`syncedCount` is incremented; a failure is caught and `errorCount` is
incremented, and the loop continues either way. -/
def syncStep (t : Nat) (acc : List Row × Nat × Nat)
    (item : Except Unit Article) : List Row × Nat × Nat :=
  match item with
  | .ok a => (upsertContent a t acc.1, acc.2.1 + 1, acc.2.2)
  | .error _ => (acc.1, acc.2.1, acc.2.2 + 1)

/-- The per-file loop of `recursiveSync` (lines 114–177) over the whole
candidate list.  A candidate is modelled by the outcome of its
fetch-and-parse step: `Except.ok` carries the article derived from the
file, `Except.error` stands for a fetch or parse failure.  The fold
threads the store and the `syncedCount`/`errorCount` counters. -/
def processBatch (items : List (Except Unit Article)) (t : Nat)
    (store : List Row) : List Row × Nat × Nat :=
  items.foldl (syncStep t) (store, 0, 0)

/-! ### Change detection (`GitHubSyncService.detectChanges`) -/

/-- A remote file as listed by the repository API. -/
structure GHFile where
  name : String
  path : String
  sha : String
  deriving DecidableEq, Repr

/-- `Map.get` on the local path-to-fingerprint map (JavaScript `Map` keys
are unique, so first-match lookup is exact). -/
def shaLookup (localShas : List (String × String)) (path : String) :
    Option String :=
  (localShas.find? fun p => p.1 == path).map (·.2)

/-- `detectChanges` from the `GitHubSyncService` template (lines
125–132): keep each remote file for which
`!localSha || localSha !== remoteFile.sha`.  `localSha` is falsy both
when the path has no entry (`undefined`) and when the stored fingerprint
is the empty string. -/
def detectChanges (localShas : List (String × String))
    (remote : List GHFile) : List GHFile :=
  remote.filter fun f =>
    match shaLookup localShas f.path with
    | none => true
    | some s => s == "" || s != f.sha

/-- The change-detection rule as the specification words it: keep exactly
the remote files whose path has no locally stored fingerprint or whose
stored fingerprint differs from the remote SHA. -/
def specDetectChanges (localShas : List (String × String))
    (remote : List GHFile) : List GHFile :=
  remote.filter fun f =>
    match shaLookup localShas f.path with
    | none => true
    | some s => s != f.sha

/-! ### Webhook endpoint
(`src/app/api/webhooks/github/[tenantId]/route.ts`) -/

/-- The repository block of a webhook payload (the fields the handler
reads). -/
structure WebhookRepository where
  default_branch : String
  full_name : String
  deriving DecidableEq, Repr

/-- One commit of a push payload. -/
structure WebhookCommit where
  added : List String
  modified : List String
  removed : List String
  deriving DecidableEq, Repr

/-- The duck-typed webhook payload: push fields (`ref`, `commits`) and
pull-request fields (`action`, `merged`, base ref) are all optional. -/
structure GitHubWebhookPayload where
  action : Option String
  repository : WebhookRepository
  ref : Option String
  commits : Option (List WebhookCommit)
  pr_merged : Option Bool
  pr_base_ref : Option String
  deriving DecidableEq, Repr

/-- An observable effect of sync processing: a network fetch of a remote
file, or a store write. -/
inductive SyncEffect where
  | fetch (path : String)
  | upsertArticle (slug : String)
  | upsertSetting (key : String)
  deriving DecidableEq, Repr

/-- `hasContentChanges` (route lines 83–95): some commit touches a file
under `contents/*.mdx` or `settings/*.json`. -/
def hasContentChanges (p : GitHubWebhookPayload) : Bool :=
  match p.commits with
  | none => false
  | some commits =>
    commits.any fun c =>
      (c.added ++ c.modified ++ c.removed).any fun f =>
        (jsStartsWith "contents/" f && jsEndsWith ".mdx" f) ||
        (jsStartsWith "settings/" f && jsEndsWith ".json" f)

/-- `processPushEvent` (route lines 102–121): pushes whose `ref` is not
exactly `refs/heads/<default_branch>` are ignored, as are pushes with no
content changes; the sync trigger itself is a TODO in the source and only
logs, so no branch performs a fetch or a store write. -/
def processPushEventEffects (p : GitHubWebhookPayload) : List SyncEffect :=
  if p.ref ≠ some ("refs/heads/" ++ p.repository.default_branch) then []
  else if !hasContentChanges p then []
  else []

/-- `processPullRequestEvent` (route lines 128–144): only merged PRs to
the default branch pass the filter; the sync trigger is a TODO and only
logs. -/
def processPullRequestEventEffects (p : GitHubWebhookPayload) : List SyncEffect :=
  if p.action ≠ some "closed" ∨ p.pr_merged ≠ some true ∨
     p.pr_base_ref ≠ some p.repository.default_branch then []
  else []

/-- The byte length of `Buffer.from(s)`: the UTF-8 encoding size of the
string. -/
def utf8Len (s : String) : Nat := (s.data.map fun c => c.utf8Size).sum

/-- `verifyGitHubSignature` (route lines 45–61), parameterized by the
HMAC-SHA256 hex function (external crypto).  An empty signature or secret
returns `false`; otherwise `crypto.timingSafeEqual` is applied to the
UTF-8 buffers of the received and expected signatures — it throws
(`Except.error`) when their byte lengths differ and otherwise compares
them byte for byte, which on equal-length buffers is string equality. -/
def verifyGitHubSignature (hmacHex : String → String → String)
    (payload signature secret : String) : Except Unit Bool :=
  if signature = "" ∨ secret = "" then .ok false
  else
    let expected := "sha256=" ++ hmacHex secret payload
    if utf8Len signature ≠ utf8Len expected then .error ()
    else .ok (signature == expected)

/-- A webhook request as the route handler sees it: the tenant path
parameter, the relevant headers (absent headers read as `null`), and the
raw body. -/
structure RouteRequest where
  tenantId : String
  event : Option String
  signature : Option String
  body : String
  deriving Repr

/-- The route handler's response: HTTP status plus the sync effects
performed while handling the request. -/
structure RouteResponse where
  status : Nat
  effects : List SyncEffect
  deriving DecidableEq, Repr

/-- Is an optional header value truthy (`headers.get` returns `null` for
a missing header, and the empty string is falsy)? -/
def headerTruthy : Option String → Bool
  | none => false
  | some s => !(s == "")

/-- The `POST` handler of
`src/app/api/webhooks/github/[tenantId]/route.ts` (lines 146–245),
parameterized by the HMAC function, the JSON parser for the payload and
the configured secret.  In source order: tenant ids shorter than three
characters are 400; a missing event header is 400; a missing secret is
500; **only when the signature header is truthy** is the signature
verified, a thrown comparison error becoming 500 through the surrounding
try/catch and a `false` result 401; an unparseable body is 400; otherwise
the event is dispatched and the handler answers 200. -/
def routePOST (hmacHex : String → String → String)
    (parseJson : String → Option GitHubWebhookPayload)
    (secret : Option String) (req : RouteRequest) : RouteResponse :=
  if req.tenantId.length < 3 then ⟨400, []⟩
  else if !headerTruthy req.event then ⟨400, []⟩
  else if !headerTruthy secret then ⟨500, []⟩
  else
    let afterSig : Option RouteResponse :=
      if headerTruthy req.signature then
        match verifyGitHubSignature hmacHex req.body
            (req.signature.getD "") (secret.getD "") with
        | .error _ => some ⟨500, []⟩
        | .ok false => some ⟨401, []⟩
        | .ok true => none
      else none
    match afterSig with
    | some resp => resp
    | none =>
      match parseJson req.body with
      | none => ⟨400, []⟩
      | some payload =>
        match req.event with
        | some "push" => ⟨200, processPushEventEffects payload⟩
        | some "pull_request" => ⟨200, processPullRequestEventEffects payload⟩
        | _ => ⟨200, []⟩

/-! ### Draft webhook pipeline (`TEMPLATE_github_webhook.ts`) -/

/-- A typed push event as the template's `shouldProcessEvent` reads it. -/
structure TemplatePushEvent where
  ref : String
  default_branch : String
  commits : List WebhookCommit
  deriving DecidableEq, Repr

/-- The push branch of `shouldProcessEvent` (template lines 108–131):
`pushEvent.ref.replace('refs/heads/', '') === defaultBranch`, where
`replace` removes only the first occurrence of `refs/heads/` anywhere in
the ref. -/
def shouldProcessPush (e : TemplatePushEvent) : Bool :=
  jsReplaceFirst "refs/heads/" "" e.ref == e.default_branch

/-- `[...new Set(xs)]`: deduplicate, keeping first occurrences in order. -/
def dedupFirst (seen : List String) : List String → List String
  | [] => []
  | x :: xs =>
    if seen.contains x then dedupFirst seen xs
    else x :: dedupFirst (x :: seen) xs

/-- `extractChangedFiles` for a push event (template lines 134–157):
added, modified and removed paths of every commit, in commit order,
deduplicated. -/
def extractChangedFiles (e : TemplatePushEvent) : List String :=
  dedupFirst [] ((e.commits.map fun c => c.added ++ c.modified ++ c.removed).join)

/-- `filterRelevantFiles` (template lines 160–173). -/
def filterRelevantFiles (files : List String) : List String × List String :=
  (files.filter fun f => jsStartsWith "contents/" f && jsEndsWith ".mdx" f,
   files.filter fun f => jsStartsWith "settings/" f && jsEndsWith ".json" f)

/-- The template `POST` handler's processing of a push event that passed
signature verification (lines 359–392): when `shouldProcessEvent`
accepts, every relevant changed file is fetched from the remote source
(the first effect of `processContentFiles` / `processSettingsFiles` per
file); when it rejects, the handler returns an ignored-event summary
without fetching or writing anything. -/
def templatePushProcessing (e : TemplatePushEvent) : List SyncEffect :=
  if shouldProcessPush e then
    let files := extractChangedFiles e
    let rel := filterRelevantFiles files
    rel.1.map .fetch ++ rel.2.map .fetch
  else []

/-! ### Concrete fixtures for closed evaluations -/

/-- A stand-in HMAC-SHA256 hex function: like the real one, it returns a
64-character hex digest for every input. -/
def hmacDemo : String → String → String :=
  fun _ _ => "aaaaaaaaaaaaaaaaaaaaaaaaaaaaaaaaaaaaaaaaaaaaaaaaaaaaaaaaaaaaaaaa"

/-- A push payload targeting a non-default branch. -/
def payloadDemo : GitHubWebhookPayload :=
  { action := none
    repository := { default_branch := "main", full_name := "owner/repo" }
    ref := some "refs/heads/dev"
    commits := none
    pr_merged := none
    pr_base_ref := none }

/-- A stand-in JSON parser that accepts every body as `payloadDemo`. -/
def parseDemo : String → Option GitHubWebhookPayload := fun _ => some payloadDemo

/-- A push event whose `ref` is the bare default-branch name rather than
a fully qualified `refs/heads/...` ref. -/
def pushBareRef : TemplatePushEvent :=
  { ref := "main"
    default_branch := "main"
    commits := [{ added := ["contents/a.mdx"], modified := [], removed := [] }] }

/-- A push event to a feature branch. -/
def pushFeature : TemplatePushEvent :=
  { ref := "refs/heads/feature"
    default_branch := "main"
    commits := [] }

/-- A concrete article for store evaluations. -/
def articleDemo : Article :=
  { slug := "blog/post", title := "T", description := "D",
    content_raw := "Body", frontmatter := "fm", status := "published",
    access_level := "public" }

/-- A second concrete article with a different slug. -/
def articleDemo2 : Article :=
  { slug := "about", title := "T2", description := "D2",
    content_raw := "Body2", frontmatter := "fm2", status := "draft",
    access_level := "private" }

/-!
## Theorems

Each claim of the specification is settled below; helper lemmas come
first, then one theorem per claim (plus a closed counterexample where the
claim fails on the code, and a closed witness where the claim's theorem
has hypotheses).
-/

/-! ### Helper lemmas -/

theorem dropWhile_of_head_false {p : Char → Bool} {l : List Char}
    (h : ∀ c ∈ l, p c = false) : l.dropWhile p = l := by
  cases l with
  | nil => rfl
  | cons x xs =>
    rw [List.dropWhile_cons_of_neg]
    simp [h x (List.mem_cons_self x xs)]

theorem jsTrimL_of_no_space {l : List Char}
    (h : ∀ c ∈ l, isJsSpace c = false) : jsTrimL l = l := by
  unfold jsTrimL
  rw [dropWhile_of_head_false h, dropWhile_of_head_false, List.reverse_reverse]
  intro c hc
  exact h c (List.mem_reverse.mp hc)

theorem collapseSpacesAux_no_space (b : Bool) (l : List Char) :
    ∀ c ∈ collapseSpacesAux b l, isJsSpace c = false := by
  induction l generalizing b with
  | nil => intro c hc; simp [collapseSpacesAux] at hc
  | cons x xs ih =>
    intro c hc
    rw [collapseSpacesAux] at hc
    split at hc
    · rename_i hx
      split at hc
      · exact ih true c hc
      · rcases List.mem_cons.mp hc with h | h
        · subst h; decide
        · exact ih true c h
    · rename_i hx
      rcases List.mem_cons.mp hc with h | h
      · subst h; simpa using hx
      · exact ih false c h

theorem ceil_div_200 (wc : Nat) : (wc + 199) / 200 = ⌈(wc : ℚ) / 200⌉₊ := by
  rcases Nat.eq_zero_or_pos wc with h0 | h0
  · subst h0; norm_num
  · have hmod := Nat.div_add_mod (wc + 199) 200
    have hmlt : (wc + 199) % 200 < 200 := Nat.mod_lt _ (by norm_num)
    symm
    rw [Nat.ceil_eq_iff (by omega)]
    constructor
    · rw [lt_div_iff (by norm_num : (0 : ℚ) < 200)]
      have hlt : ((wc + 199) / 200 - 1) * 200 < wc := by omega
      exact_mod_cast hlt
    · rw [div_le_iff (by norm_num : (0 : ℚ) < 200)]
      have hle : wc ≤ ((wc + 199) / 200) * 200 := by omega
      exact_mod_cast hle

/-! ### C5 — slug derivation from file paths -/

/-- C5: the file-path-to-slug derivation of the bulk sync is a pure
function of the path (same input, same output), maps
`contents/blog/index.mdx` to `blog`, `contents/index.mdx` to `index`,
`contents/about.mdx` to `about`, and turns an empty derivation result
into `index`. -/
theorem deriveSlug_spec :
    (∀ p q : String, p = q → deriveSlug p = deriveSlug q) ∧
    deriveSlug "contents/blog/index.mdx" = "blog" ∧
    deriveSlug "contents/index.mdx" = "index" ∧
    deriveSlug "contents/about.mdx" = "about" ∧
    deriveSlug "contents/.mdx" = "index" := by
  refine ⟨fun p q h => by rw [h], ?_, ?_, ?_, ?_⟩ <;> decide

/-- Witness for C5 at a concrete path. -/
theorem deriveSlug_spec_witness :
    deriveSlug "contents/blog/index.mdx" = deriveSlug "contents/blog/index.mdx" ∧
    deriveSlug "contents/blog/index.mdx" = "blog" :=
  ⟨deriveSlug_spec.1 "contents/blog/index.mdx" "contents/blog/index.mdx" rfl,
   deriveSlug_spec.2.1⟩

/-! ### C9 — title slug generation -/

/-- C9 counterexample: `generateSlug " a "` is `"-a-"`, which both starts
and ends with a hyphen, so the trailing `.trim()` does not trim edge
hyphens as the claim states. -/
theorem generateSlug_counterexample :
    generateSlug " a " = "-a-" ∧
    (generateSlug " a ").data.head? = some '-' ∧
    (generateSlug " a ").data.getLast? = some '-' := by
  refine ⟨?_, ?_, ?_⟩ <;> decide

/-- C9 amended: `generateSlug` lowercases the title, strips characters
that are neither lowercase alphanumerics nor whitespace, and collapses
every whitespace run to a single hyphen; the final `.trim()` removes only
whitespace, of which none remains after the collapse, so it is the
identity — consequently the result can begin or end with a hyphen (never
with whitespace). -/
theorem generateSlug_amended (title : String) :
    generateSlug title =
      ⟨collapseSpaces ((title.data.map jsToLowerChar).filter isSlugKeep)⟩ ∧
    ∀ c ∈ (generateSlug title).data, isJsSpace c = false := by
  have hns : ∀ c ∈ collapseSpaces ((title.data.map jsToLowerChar).filter isSlugKeep),
      isJsSpace c = false :=
    collapseSpacesAux_no_space false _
  constructor
  · unfold generateSlug
    rw [jsTrimL_of_no_space hns]
  · intro c hc
    apply hns
    unfold generateSlug at hc
    rwa [jsTrimL_of_no_space hns] at hc

/-- Witness for the amended C9 at a concrete title. -/
theorem generateSlug_amended_witness :
    generateSlug " a " =
      ⟨collapseSpaces (((" a " : String).data.map jsToLowerChar).filter isSlugKeep)⟩ ∧
    isJsSpace '-' = false :=
  ⟨(generateSlug_amended " a ").1,
   (generateSlug_amended " a ").2 '-' (by decide)⟩

/-! ### C8 — the example article parse -/

/-- C8: parsing the example file (front-matter `title: "Home"`,
`status: "published"`, `accessLevel: "public"`, body `# Hello`) yields
the heading outline `[⟨1, "Hello", "hello"⟩]`, a word count of at least
one, reading time exactly one, the published status and public access
level in the validated front-matter — and for every word count the
reading time is `max 1 ⌈wordCount / 200⌉`. -/
theorem parseMDX_example :
    (parseMDXPure [("title", .str "Home"), ("status", .str "published"),
        ("accessLevel", .str "public")] "# Hello").headings =
      [{ level := 1, text := "Hello", slug := "hello" }] ∧
    1 ≤ (parseMDXPure [("title", .str "Home"), ("status", .str "published"),
        ("accessLevel", .str "public")] "# Hello").wordCount ∧
    (parseMDXPure [("title", .str "Home"), ("status", .str "published"),
        ("accessLevel", .str "public")] "# Hello").readingTime = 1 ∧
    assocGet (parseMDXPure [("title", .str "Home"), ("status", .str "published"),
        ("accessLevel", .str "public")] "# Hello").frontmatter "status" =
      some (.str "published") ∧
    assocGet (parseMDXPure [("title", .str "Home"), ("status", .str "published"),
        ("accessLevel", .str "public")] "# Hello").frontmatter "accessLevel" =
      some (.str "public") ∧
    ∀ wordCount : Nat,
      calculateReadingTime wordCount = max 1 ⌈(wordCount : ℚ) / 200⌉₊ := by
  refine ⟨by decide, by decide, by decide, by decide, by decide, fun wc => ?_⟩
  unfold calculateReadingTime
  rw [ceil_div_200]

/-! ### C6 — front-matter validation lemmas -/

theorem hasKey_append (l1 l2 : List (String × JSValue)) (k : String) :
    hasKey (l1 ++ l2) k = (hasKey l1 k || hasKey l2 k) := by
  unfold hasKey
  exact List.any_append

theorem assocGet_append_left {l1 : List (String × JSValue)} {k : String}
    (l2 : List (String × JSValue)) (h : hasKey l1 k = true) :
    assocGet (l1 ++ l2) k = assocGet l1 k := by
  unfold assocGet
  rw [List.find?_append]
  have hsome : (l1.find? fun p => p.1 == k).isSome := by
    rw [List.find?_isSome]
    exact List.any_eq_true.mp h
  obtain ⟨p, hp⟩ := Option.isSome_iff_exists.mp hsome
  rw [hp]
  rfl

theorem assocGet_append_right {l1 : List (String × JSValue)} {k : String}
    (l2 : List (String × JSValue)) (h : hasKey l1 k = false) :
    assocGet (l1 ++ l2) k = assocGet l2 k := by
  unfold assocGet
  rw [List.find?_append]
  have hnone : l1.find? (fun p => p.1 == k) = none := by
    rw [List.find?_eq_none]
    intro p hp hpk
    have : hasKey l1 k = true := List.any_eq_true.mpr ⟨p, hp, hpk⟩
    rw [this] at h
    exact absurd h (by simp)
  rw [hnone]
  rfl

theorem copyFold_preserve (data : List (String × JSValue)) :
    ∀ acc k, hasKey acc k = true →
      assocGet (copyFold acc data) k = assocGet acc k := by
  induction data with
  | nil => intro acc k _; rfl
  | cons p rest ih =>
    intro acc k h
    show assocGet (copyFold (if hasKey acc p.1 then acc else acc ++ [p]) rest) k = _
    by_cases hp : hasKey acc p.1
    · rw [if_pos hp]
      exact ih acc k h
    · rw [if_neg hp]
      rw [ih (acc ++ [p]) k (by rw [hasKey_append, h]; rfl)]
      exact assocGet_append_left [p] h

theorem copyFold_first (data : List (String × JSValue)) :
    ∀ acc k v, hasKey acc k = false → assocGet data k = some v →
      assocGet (copyFold acc data) k = some v := by
  induction data with
  | nil => intro acc k v _ hdata; simp [assocGet] at hdata
  | cons p rest ih =>
    intro acc k v hacc hdata
    show assocGet (copyFold (if hasKey acc p.1 then acc else acc ++ [p]) rest) k = _
    by_cases hk : p.1 == k
    · have hkeq : p.1 = k := by simpa using hk
      have hdv : p.2 = v := by
        simp only [assocGet, List.find?, hk] at hdata
        simpa using hdata
      rw [if_neg (by rw [hkeq, hacc]; simp)]
      rw [copyFold_preserve rest (acc ++ [p]) k
        (by rw [hasKey_append, hacc]; simp [hasKey, hk])]
      rw [assocGet_append_right [p] hacc]
      simp only [assocGet, List.find?, hk]
      simpa using hdv
    · have hkf : (p.1 == k) = false := by simpa using hk
      have hdata' : assocGet rest k = some v := by
        simp only [assocGet, List.find?, hkf] at hdata
        exact hdata
      by_cases hp : hasKey acc p.1
      · rw [if_pos hp]
        exact ih acc k v hacc hdata'
      · rw [if_neg hp]
        refine ih (acc ++ [p]) k v ?_ hdata'
        rw [hasKey_append, hacc]
        simp [hasKey, hkf]

theorem fieldString_key {data : List (String × JSValue)} {k : String}
    {p : String × JSValue} (h : fieldString data k = some p) : p.1 = k := by
  unfold fieldString at h
  split at h
  · split at h
    · simp only [Option.some.injEq] at h
      subst h; rfl
    · exact absurd h (by simp)
  · exact absurd h (by simp)

theorem fieldDate_key {data : List (String × JSValue)}
    {p : String × JSValue} (h : fieldDate data = some p) : p.1 = "date" := by
  unfold fieldDate at h
  split at h
  · split at h
    · simp only [Option.some.injEq] at h
      subst h; rfl
    · exact absurd h (by simp)
  · exact absurd h (by simp)

theorem fieldTags_key {data : List (String × JSValue)}
    {p : String × JSValue} (h : fieldTags data = some p) : p.1 = "tags" := by
  unfold fieldTags at h
  split at h
  · simp only [Option.some.injEq] at h
    subst h; rfl
  · exact absurd h (by simp)

theorem fieldStatus_key {data : List (String × JSValue)}
    {p : String × JSValue} (h : fieldStatus data = some p) : p.1 = "status" := by
  unfold fieldStatus at h
  split at h
  · split at h
    · simp only [Option.some.injEq] at h
      subst h; rfl
    · exact absurd h (by simp)
  · exact absurd h (by simp)

theorem fieldAccessLevel_key {data : List (String × JSValue)}
    {p : String × JSValue} (h : fieldAccessLevel data = some p) :
    p.1 = "accessLevel" := by
  unfold fieldAccessLevel at h
  split at h
  · split at h
    · simp only [Option.some.injEq] at h
      subst h; rfl
    · exact absurd h (by simp)
  · exact absurd h (by simp)

theorem fieldFeatured_key {data : List (String × JSValue)}
    {p : String × JSValue} (h : fieldFeatured data = some p) :
    p.1 = "featured" := by
  unfold fieldFeatured at h
  split at h
  · simp only [Option.some.injEq] at h
    subst h; rfl
  · exact absurd h (by simp)

theorem typedFields_key {data : List (String × JSValue)}
    {p : String × JSValue} (h : p ∈ typedFields data) :
    p.1 ∈ recognizedKeys := by
  unfold typedFields at h
  have h' := List.reduceOption_mem_iff.mp h
  unfold recognizedKeys
  simp only [List.mem_cons, List.not_mem_nil, or_false] at h' ⊢
  rcases h' with h' | h' | h' | h' | h' | h' | h' | h' | h' | h' | h'
  · exact Or.inl (fieldString_key h'.symm)
  · exact Or.inr (Or.inl (fieldString_key h'.symm))
  · exact Or.inr (Or.inr (Or.inl (fieldString_key h'.symm)))
  · exact Or.inr (Or.inr (Or.inr (Or.inl (fieldString_key h'.symm))))
  · exact Or.inr (Or.inr (Or.inr (Or.inr (Or.inl (fieldString_key h'.symm)))))
  · exact Or.inr (Or.inr (Or.inr (Or.inr (Or.inr (Or.inl (fieldString_key h'.symm))))))
  · exact Or.inr (Or.inr (Or.inr (Or.inr (Or.inr (Or.inr (Or.inl (fieldDate_key h'.symm)))))))
  · exact Or.inr (Or.inr (Or.inr (Or.inr (Or.inr (Or.inr (Or.inr (Or.inl (fieldTags_key h'.symm))))))))
  · exact Or.inr (Or.inr (Or.inr (Or.inr (Or.inr (Or.inr (Or.inr (Or.inr (Or.inl (fieldStatus_key h'.symm)))))))))
  · exact Or.inr (Or.inr (Or.inr (Or.inr (Or.inr (Or.inr (Or.inr (Or.inr (Or.inr (Or.inl (fieldAccessLevel_key h'.symm))))))))))
  · exact Or.inr (Or.inr (Or.inr (Or.inr (Or.inr (Or.inr (Or.inr (Or.inr (Or.inr (Or.inr (fieldFeatured_key h'.symm))))))))))

theorem hasKey_typedFields_of_not_recognized {data : List (String × JSValue)}
    {k : String} (h : k ∉ recognizedKeys) :
    hasKey (typedFields data) k = false := by
  by_contra hk
  have : hasKey (typedFields data) k = true := by
    cases hval : hasKey (typedFields data) k
    · exact absurd hval hk
    · rfl
  obtain ⟨p, hp, hpk⟩ := List.any_eq_true.mp this
  have : p.1 = k := by simpa using hpk
  exact h (this ▸ typedFields_key hp)

theorem hasKey_typedFields_status {data : List (String × JSValue)} {v : JSValue}
    (hv : assocGet data "status" = some v) (hinv : validStatus v = false) :
    hasKey (typedFields data) "status" = false := by
  cases hval : hasKey (typedFields data) "status"
  · rfl
  · exfalso
    obtain ⟨p, hp, hpk⟩ := List.any_eq_true.mp hval
    have hpk' : p.1 = "status" := by simpa using hpk
    unfold typedFields at hp
    have h' := List.reduceOption_mem_iff.mp hp
    simp only [List.mem_cons, List.not_mem_nil, or_false] at h'
    rcases h' with h' | h' | h' | h' | h' | h' | h' | h' | h' | h' | h'
    · have h1 := fieldString_key h'.symm; rw [hpk'] at h1; exact absurd h1 (by decide)
    · have h1 := fieldString_key h'.symm; rw [hpk'] at h1; exact absurd h1 (by decide)
    · have h1 := fieldString_key h'.symm; rw [hpk'] at h1; exact absurd h1 (by decide)
    · have h1 := fieldString_key h'.symm; rw [hpk'] at h1; exact absurd h1 (by decide)
    · have h1 := fieldString_key h'.symm; rw [hpk'] at h1; exact absurd h1 (by decide)
    · have h1 := fieldString_key h'.symm; rw [hpk'] at h1; exact absurd h1 (by decide)
    · have h1 := fieldDate_key h'.symm; rw [hpk'] at h1; exact absurd h1 (by decide)
    · have h1 := fieldTags_key h'.symm; rw [hpk'] at h1; exact absurd h1 (by decide)
    · unfold fieldStatus at h'
      rw [hv] at h'
      simp [hinv] at h'
    · have h1 := fieldAccessLevel_key h'.symm; rw [hpk'] at h1; exact absurd h1 (by decide)
    · have h1 := fieldFeatured_key h'.symm; rw [hpk'] at h1; exact absurd h1 (by decide)

theorem hasKey_typedFields_accessLevel {data : List (String × JSValue)} {v : JSValue}
    (hv : assocGet data "accessLevel" = some v) (hinv : validAccessLevel v = false) :
    hasKey (typedFields data) "accessLevel" = false := by
  cases hval : hasKey (typedFields data) "accessLevel"
  · rfl
  · exfalso
    obtain ⟨p, hp, hpk⟩ := List.any_eq_true.mp hval
    have hpk' : p.1 = "accessLevel" := by simpa using hpk
    unfold typedFields at hp
    have h' := List.reduceOption_mem_iff.mp hp
    simp only [List.mem_cons, List.not_mem_nil, or_false] at h'
    rcases h' with h' | h' | h' | h' | h' | h' | h' | h' | h' | h' | h'
    · have h1 := fieldString_key h'.symm; rw [hpk'] at h1; exact absurd h1 (by decide)
    · have h1 := fieldString_key h'.symm; rw [hpk'] at h1; exact absurd h1 (by decide)
    · have h1 := fieldString_key h'.symm; rw [hpk'] at h1; exact absurd h1 (by decide)
    · have h1 := fieldString_key h'.symm; rw [hpk'] at h1; exact absurd h1 (by decide)
    · have h1 := fieldString_key h'.symm; rw [hpk'] at h1; exact absurd h1 (by decide)
    · have h1 := fieldString_key h'.symm; rw [hpk'] at h1; exact absurd h1 (by decide)
    · have h1 := fieldDate_key h'.symm; rw [hpk'] at h1; exact absurd h1 (by decide)
    · have h1 := fieldTags_key h'.symm; rw [hpk'] at h1; exact absurd h1 (by decide)
    · have h1 := fieldStatus_key h'.symm; rw [hpk'] at h1; exact absurd h1 (by decide)
    · unfold fieldAccessLevel at h'
      rw [hv] at h'
      simp [hinv] at h'
    · have h1 := fieldFeatured_key h'.symm; rw [hpk'] at h1; exact absurd h1 (by decide)

/-- C6 counterexample: a `status` value outside the enum set is **not**
omitted from the validated result — the enum check skips it, but the
custom-field pass-through then copies it verbatim, so it appears in the
result unchanged. -/
theorem validateFrontmatter_counterexample :
    assocGet (validateFrontmatter [("status", JSValue.str "bogus")]) "status" =
      some (JSValue.str "bogus") ∧
    validStatus (JSValue.str "bogus") = false :=
  ⟨by decide, by decide⟩

/-- C6 amended: front-matter validation never fails on an individual
field, but a `status` or `accessLevel` outside its enum set is not
omitted: skipped by the typed enum assignment, it is copied verbatim into
the validated result by the unknown-field pass-through; every
unrecognized field is likewise passed through verbatim. -/
theorem validateFrontmatter_amended :
    (∀ data v, assocGet data "status" = some v → validStatus v = false →
        assocGet (validateFrontmatter data) "status" = some v) ∧
    (∀ data v, assocGet data "accessLevel" = some v → validAccessLevel v = false →
        assocGet (validateFrontmatter data) "accessLevel" = some v) ∧
    (∀ data k v, k ∉ recognizedKeys → assocGet data k = some v →
        assocGet (validateFrontmatter data) k = some v) := by
  refine ⟨?_, ?_, ?_⟩
  · intro data v hv hinv
    exact copyFold_first data (typedFields data) "status" v
      (hasKey_typedFields_status hv hinv) hv
  · intro data v hv hinv
    exact copyFold_first data (typedFields data) "accessLevel" v
      (hasKey_typedFields_accessLevel hv hinv) hv
  · intro data k v hk hv
    exact copyFold_first data (typedFields data) k v
      (hasKey_typedFields_of_not_recognized hk) hv

/-- Witness for the amended C6 on a concrete object with an invalid enum
and a custom field. -/
theorem validateFrontmatter_amended_witness :
    assocGet (validateFrontmatter [("status", JSValue.str "bogus"),
      ("custom", JSValue.num 5)]) "status" = some (JSValue.str "bogus") ∧
    assocGet (validateFrontmatter [("status", JSValue.str "bogus"),
      ("custom", JSValue.num 5)]) "custom" = some (JSValue.num 5) :=
  ⟨validateFrontmatter_amended.1 [("status", JSValue.str "bogus"),
      ("custom", JSValue.num 5)] (JSValue.str "bogus") (by decide) (by decide),
   validateFrontmatter_amended.2.2 [("status", JSValue.str "bogus"),
      ("custom", JSValue.num 5)] "custom" (JSValue.num 5) (by decide) (by decide)⟩

/-! ### C7 — change detection -/

/-- C7 counterexample: with a stored fingerprint that is the empty string
and an identical remote SHA, the file's fingerprints match and the claim
says it is excluded, but `!localSha` treats the empty string as missing
and the code keeps the file. -/
theorem detectChanges_counterexample :
    detectChanges [("contents/a.mdx", "")]
        [{ name := "a.mdx", path := "contents/a.mdx", sha := "" }] =
      [{ name := "a.mdx", path := "contents/a.mdx", sha := "" }] ∧
    specDetectChanges [("contents/a.mdx", "")]
        [{ name := "a.mdx", path := "contents/a.mdx", sha := "" }] = [] :=
  ⟨by decide, by decide⟩

/-- C7 amended: change detection keeps, in listing order, exactly the
remote files whose path has no stored fingerprint, whose stored
fingerprint is the empty string (which `!localSha` conflates with
missing), or whose stored fingerprint differs from the remote SHA; when
every stored fingerprint is non-empty this coincides with the claim's
rule exactly. -/
theorem detectChanges_spec :
    (∀ shas remote, (detectChanges shas remote).Sublist remote) ∧
    (∀ shas remote f, f ∈ detectChanges shas remote ↔
        f ∈ remote ∧ ∀ s, shaLookup shas f.path = some s → s = "" ∨ s ≠ f.sha) ∧
    (∀ shas remote, (∀ pr ∈ shas, pr.2 ≠ "") →
        detectChanges shas remote = specDetectChanges shas remote) := by
  refine ⟨fun shas remote => List.filter_sublist remote, ?_, ?_⟩
  · intro shas remote f
    unfold detectChanges
    rw [List.mem_filter]
    constructor
    · rintro ⟨hmem, hpred⟩
      refine ⟨hmem, fun s hs => ?_⟩
      rw [hs] at hpred
      rcases Bool.or_eq_true_iff.mp hpred with h | h
      · exact Or.inl (by simpa using h)
      · exact Or.inr (by simpa using h)
    · rintro ⟨hmem, hpred⟩
      refine ⟨hmem, ?_⟩
      cases hl : shaLookup shas f.path with
      | none => rfl
      | some s =>
        rcases hpred s hl with h | h
        · subst h; rfl
        · simp [bne, h]
  · intro shas remote hne
    unfold detectChanges specDetectChanges
    refine List.filter_congr fun f _ => ?_
    cases hl : shaLookup shas f.path with
    | none => rfl
    | some s =>
      have hs : s ≠ "" := by
        unfold shaLookup at hl
        rw [Option.map_eq_some'] at hl
        obtain ⟨p, hp, hps⟩ := hl
        exact hps ▸ hne p (List.mem_of_find?_eq_some hp)
      have heq : (s == "") = false := by simpa using hs
      show (s == "" || s != f.sha) = (s != f.sha)
      rw [heq]
      rfl

/-- Witness for the amended C7 on a concrete map and listing. -/
theorem detectChanges_spec_witness :
    detectChanges [("contents/a.mdx", "abc")]
        [{ name := "a.mdx", path := "contents/a.mdx", sha := "def" }] =
      specDetectChanges [("contents/a.mdx", "abc")]
        [{ name := "a.mdx", path := "contents/a.mdx", sha := "def" }] :=
  detectChanges_spec.2.2 [("contents/a.mdx", "abc")]
    [{ name := "a.mdx", path := "contents/a.mdx", sha := "def" }] (by decide)

/-! ### C2 — idempotent upsert -/

theorem find?_eq_filter_head? {α : Type} (p : α → Bool) (l : List α) :
    l.find? p = (l.filter p).head? := by
  induction l with
  | nil => rfl
  | cons x xs ih =>
    rw [List.find?_cons, List.filter_cons]
    cases h : p x
    · exact ih
    · rfl

theorem filter_update (a : Article) (t : Nat) (store : List Row) :
    ((store.map fun r => if r.article.slug == a.slug
        then { article := a, created_at := r.created_at, updated_at := t }
        else r).filter fun r => r.article.slug == a.slug) =
      ((store.filter fun r => r.article.slug == a.slug).map
        fun r => { article := a, created_at := r.created_at, updated_at := t }) := by
  induction store with
  | nil => rfl
  | cons x xs ih =>
    by_cases h : (x.article.slug == a.slug) = true
    · simp only [List.map_cons, List.filter_cons, if_pos h]
      have hnew : (a.slug == a.slug) = true := by simp
      simp only [if_pos hnew, List.map_cons]
      rw [ih]
    · simp only [List.map_cons, List.filter_cons, if_neg h]
      exact ih

/-- C2: applying the same article upsert twice, at times `t1` then `t2`,
to a store with at most one row per slug leaves exactly one row for the
slug; that row carries the article's syncable fields (as a single
application would), its `updated_at` is the second application's time,
and its `created_at` is the time the record was first created — the
prior row's creation time when the slug already existed, else `t1`. -/
theorem upsert_idempotent (a : Article) (prior : List Row) (t1 t2 : Nat)
    (huniq : slugCount prior a.slug ≤ 1) :
    slugCount (upsertContent a t2 (upsertContent a t1 prior)) a.slug = 1 ∧
    ∀ r ∈ upsertContent a t2 (upsertContent a t1 prior),
      r.article.slug = a.slug →
        r.article = a ∧ r.updated_at = t2 ∧
        r.created_at =
          (match prior.find? fun r0 => r0.article.slug == a.slug with
           | some r0 => r0.created_at
           | none => t1) := by
  by_cases hany : (prior.any fun r => r.article.slug == a.slug) = true
  · -- the slug already exists: both applications take the update branch
    obtain ⟨r0, hr0mem, hr0⟩ := List.any_eq_true.mp hany
    have hfilter1 : (prior.filter fun r => r.article.slug == a.slug).length = 1 := by
      have hge : 1 ≤ (prior.filter fun r => r.article.slug == a.slug).length := by
        have : r0 ∈ prior.filter fun r => r.article.slug == a.slug :=
          List.mem_filter.mpr ⟨hr0mem, hr0⟩
        exact List.length_pos.mpr (List.ne_nil_of_mem this)
      exact le_antisymm huniq hge
    obtain ⟨rx, hrx⟩ := List.length_eq_one.mp hfilter1
    have hs1 : upsertContent a t1 prior =
        prior.map fun r => if r.article.slug == a.slug
          then { article := a, created_at := r.created_at, updated_at := t1 }
          else r := by
      unfold upsertContent
      rw [if_pos hany]
    have hany1 : ((upsertContent a t1 prior).any
        fun r => r.article.slug == a.slug) = true := by
      rw [hs1]
      refine List.any_eq_true.mpr ?_
      refine ⟨if r0.article.slug == a.slug
        then { article := a, created_at := r0.created_at, updated_at := t1 }
        else r0, List.mem_map_of_mem _ hr0mem, ?_⟩
      rw [if_pos hr0]
      simp
    have hs2 : upsertContent a t2 (upsertContent a t1 prior) =
        (upsertContent a t1 prior).map fun r => if r.article.slug == a.slug
          then { article := a, created_at := r.created_at, updated_at := t2 }
          else r := by
      conv_lhs => rw [upsertContent]
      rw [if_pos hany1]
    have hfilter2 : ((upsertContent a t2 (upsertContent a t1 prior)).filter
        fun r => r.article.slug == a.slug) =
        [{ article := a, created_at := rx.created_at, updated_at := t2 }] := by
      rw [hs2, filter_update, hs1, filter_update, hrx]
      simp
    have hfind : (prior.find? fun r0 => r0.article.slug == a.slug) = some rx := by
      rw [find?_eq_filter_head?, hrx]
      rfl
    constructor
    · unfold slugCount
      rw [hfilter2]
      rfl
    · intro r hrmem hrslug
      have : r ∈ (upsertContent a t2 (upsertContent a t1 prior)).filter
          fun r => r.article.slug == a.slug :=
        List.mem_filter.mpr ⟨hrmem, by simp [hrslug]⟩
      rw [hfilter2] at this
      simp only [List.mem_singleton] at this
      subst this
      rw [hfind]
      exact ⟨rfl, rfl, rfl⟩
  · -- no row for the slug: the first application inserts, the second updates
    have hanyf : (prior.any fun r => r.article.slug == a.slug) = false := by
      cases h : prior.any fun r => r.article.slug == a.slug
      · rfl
      · exact absurd h hany
    have hfilter0 : (prior.filter fun r => r.article.slug == a.slug) = [] := by
      rw [List.filter_eq_nil_iff]
      intro r hr
      have := List.any_eq_false.mp hanyf r hr
      simpa using this
    have hfind : (prior.find? fun r0 => r0.article.slug == a.slug) = none := by
      rw [find?_eq_filter_head?, hfilter0]
      rfl
    have hs1 : upsertContent a t1 prior =
        prior ++ [{ article := a, created_at := t1, updated_at := t1 }] := by
      unfold upsertContent
      rw [if_neg (by rw [hanyf]; simp)]
    have hany1 : ((upsertContent a t1 prior).any
        fun r => r.article.slug == a.slug) = true := by
      rw [hs1, List.any_append]
      simp
    have hs2 : upsertContent a t2 (upsertContent a t1 prior) =
        (upsertContent a t1 prior).map fun r => if r.article.slug == a.slug
          then { article := a, created_at := r.created_at, updated_at := t2 }
          else r := by
      conv_lhs => rw [upsertContent]
      rw [if_pos hany1]
    have hfilter2 : ((upsertContent a t2 (upsertContent a t1 prior)).filter
        fun r => r.article.slug == a.slug) =
        [{ article := a, created_at := t1, updated_at := t2 }] := by
      rw [hs2, filter_update, hs1, List.filter_append, hfilter0]
      simp
    constructor
    · unfold slugCount
      rw [hfilter2]
      rfl
    · intro r hrmem hrslug
      have : r ∈ (upsertContent a t2 (upsertContent a t1 prior)).filter
          fun r => r.article.slug == a.slug :=
        List.mem_filter.mpr ⟨hrmem, by simp [hrslug]⟩
      rw [hfilter2] at this
      simp only [List.mem_singleton] at this
      subst this
      rw [hfind]
      exact ⟨rfl, rfl, rfl⟩

/-- Witness for C2: upserting the demo article twice into the empty store
leaves exactly one row for its slug. -/
theorem upsert_idempotent_witness :
    slugCount (upsertContent articleDemo 2 (upsertContent articleDemo 1 []))
      articleDemo.slug = 1 :=
  (upsert_idempotent articleDemo [] 1 2 (by decide)).1

/-! ### C3 — partial-failure isolation -/

theorem upsert_any_self (a : Article) (t : Nat) (st : List Row) :
    ((upsertContent a t st).any fun r => r.article.slug == a.slug) = true := by
  unfold upsertContent
  by_cases hany : (st.any fun r => r.article.slug == a.slug) = true
  · rw [if_pos hany]
    obtain ⟨r0, hr0mem, hr0⟩ := List.any_eq_true.mp hany
    refine List.any_eq_true.mpr ?_
    refine ⟨if (r0.article.slug == a.slug) = true
      then { article := a, created_at := r0.created_at, updated_at := t }
      else r0, List.mem_map_of_mem _ hr0mem, ?_⟩
    rw [if_pos hr0]
    simp
  · rw [if_neg hany, List.any_append]
    simp

theorem upsert_any_mono (b : Article) (t : Nat) (st : List Row) (s : String)
    (h : (st.any fun r => r.article.slug == s) = true) :
    ((upsertContent b t st).any fun r => r.article.slug == s) = true := by
  unfold upsertContent
  obtain ⟨r0, hr0mem, hr0⟩ := List.any_eq_true.mp h
  by_cases hany : (st.any fun r => r.article.slug == b.slug) = true
  · rw [if_pos hany]
    refine List.any_eq_true.mpr ?_
    by_cases hb : (r0.article.slug == b.slug) = true
    · refine ⟨{ article := b, created_at := r0.created_at, updated_at := t },
        ?_, ?_⟩
      · have : (if (r0.article.slug == b.slug) = true
            then ({ article := b, created_at := r0.created_at, updated_at := t } : Row)
            else r0) = { article := b, created_at := r0.created_at, updated_at := t } :=
          if_pos hb
        exact this ▸ List.mem_map_of_mem _ hr0mem
      · have h1 : r0.article.slug = s := by simpa using hr0
        have h2 : r0.article.slug = b.slug := by simpa using hb
        simp [← h2, h1]
    · refine ⟨r0, ?_, hr0⟩
      have : (if (r0.article.slug == b.slug) = true
          then ({ article := b, created_at := r0.created_at, updated_at := t } : Row)
          else r0) = r0 := if_neg hb
      exact this ▸ List.mem_map_of_mem _ hr0mem
  · rw [if_neg hany, List.any_append, h]
    rfl

theorem syncFold_shift (t : Nat) (items : List (Except Unit Article)) :
    ∀ (st : List Row) (s e : Nat),
      items.foldl (syncStep t) (st, s, e) =
        ((items.foldl (syncStep t) (st, 0, 0)).1,
         s + (items.foldl (syncStep t) (st, 0, 0)).2.1,
         e + (items.foldl (syncStep t) (st, 0, 0)).2.2) := by
  induction items with
  | nil => intro st s e; simp
  | cons item rest ih =>
    intro st s e
    cases item with
    | ok a =>
      rw [List.foldl_cons, List.foldl_cons]
      show rest.foldl (syncStep t) (upsertContent a t st, s + 1, e) = _
      rw [ih (upsertContent a t st) (s + 1) e]
      conv_rhs => rw [show syncStep t (st, 0, 0) (Except.ok a) =
        (upsertContent a t st, 1, 0) from rfl]
      rw [ih (upsertContent a t st) 1 0]
      simp only [Prod.mk.injEq, true_and]
      omega
    | error err =>
      rw [List.foldl_cons, List.foldl_cons]
      show rest.foldl (syncStep t) (st, s, e + 1) = _
      rw [ih st s (e + 1)]
      conv_rhs => rw [show syncStep t (st, 0, 0) (Except.error err) =
        (st, 0, 1) from rfl]
      rw [ih st 0 1]
      simp only [Prod.mk.injEq, true_and]
      omega

theorem processBatch_counts (items : List (Except Unit Article)) (t : Nat) :
    ∀ store : List Row,
      (processBatch items t store).2.1 = items.countP (fun i => i.isOk) ∧
      (processBatch items t store).2.2 = items.countP (fun i => !(i.isOk)) := by
  induction items with
  | nil => intro store; exact ⟨rfl, rfl⟩
  | cons item rest ih =>
    intro store
    cases item with
    | ok a =>
      unfold processBatch
      rw [List.foldl_cons]
      show (rest.foldl (syncStep t) (upsertContent a t store, 1, 0)).2.1 = _ ∧
        (rest.foldl (syncStep t) (upsertContent a t store, 1, 0)).2.2 = _
      rw [syncFold_shift t rest (upsertContent a t store) 1 0]
      have hr := ih (upsertContent a t store)
      unfold processBatch at hr
      refine ⟨?_, ?_⟩
      · show 1 + (rest.foldl (syncStep t) (upsertContent a t store, 0, 0)).2.1 = _
        rw [hr.1, List.countP_cons_of_pos]
        · have he : List.countP (fun i => i.isOk) rest =
              List.countP (Except.isOk) rest := rfl
          omega
        · rfl
      · show 0 + (rest.foldl (syncStep t) (upsertContent a t store, 0, 0)).2.2 = _
        rw [hr.2]
        rw [List.countP_cons_of_neg]
        · omega
        · simp [Except.isOk, Except.toBool]
    | error err =>
      unfold processBatch
      rw [List.foldl_cons]
      show (rest.foldl (syncStep t) (store, 0, 1)).2.1 = _ ∧
        (rest.foldl (syncStep t) (store, 0, 1)).2.2 = _
      rw [syncFold_shift t rest store 0 1]
      have hr := ih store
      unfold processBatch at hr
      refine ⟨?_, ?_⟩
      · show 0 + (rest.foldl (syncStep t) (store, 0, 0)).2.1 = _
        rw [hr.1]
        rw [List.countP_cons_of_neg]
        · omega
        · simp [Except.isOk, Except.toBool]
      · show 1 + (rest.foldl (syncStep t) (store, 0, 0)).2.2 = _
        rw [hr.2, List.countP_cons_of_pos]
        · omega
        · rfl

theorem processBatch_store_preserve (t : Nat) (s : String)
    (items : List (Except Unit Article)) :
    ∀ store : List Row, (store.any fun r => r.article.slug == s) = true →
      (((processBatch items t store).1).any fun r => r.article.slug == s) = true := by
  induction items with
  | nil => intro store h; exact h
  | cons item rest ih =>
    intro store h
    cases item with
    | ok a =>
      unfold processBatch
      rw [List.foldl_cons]
      show ((rest.foldl (syncStep t) (upsertContent a t store, 1, 0)).1.any _) = true
      rw [syncFold_shift t rest (upsertContent a t store) 1 0]
      exact ih (upsertContent a t store) (upsert_any_mono a t store s h)
    | error err =>
      unfold processBatch
      rw [List.foldl_cons]
      show ((rest.foldl (syncStep t) (store, 0, 1)).1.any _) = true
      rw [syncFold_shift t rest store 0 1]
      exact ih store h

theorem processBatch_ok_mem (t : Nat) (items : List (Except Unit Article)) :
    ∀ (store : List Row) (a : Article), Except.ok a ∈ items →
      (((processBatch items t store).1).any fun r => r.article.slug == a.slug) = true := by
  induction items with
  | nil => intro store a ha; simp at ha
  | cons item rest ih =>
    intro store a ha
    rcases List.mem_cons.mp ha with heq | hmem
    · subst heq
      unfold processBatch
      rw [List.foldl_cons]
      show ((rest.foldl (syncStep t) (upsertContent a t store, 1, 0)).1.any _) = true
      rw [syncFold_shift t rest (upsertContent a t store) 1 0]
      exact processBatch_store_preserve t a.slug rest (upsertContent a t store)
        (upsert_any_self a t store)
    · cases item with
      | ok b =>
        unfold processBatch
        rw [List.foldl_cons]
        show ((rest.foldl (syncStep t) (upsertContent b t store, 1, 0)).1.any _) = true
        rw [syncFold_shift t rest (upsertContent b t store) 1 0]
        exact ih (upsertContent b t store) a hmem
      | error err =>
        unfold processBatch
        rw [List.foldl_cons]
        show ((rest.foldl (syncStep t) (store, 0, 1)).1.any _) = true
        rw [syncFold_shift t rest store 0 1]
        exact ih store a hmem

theorem countP_ok_err (items : List (Except Unit Article)) :
    items.countP (fun i => i.isOk) + items.countP (fun i => !(i.isOk)) =
      items.length := by
  induction items with
  | nil => rfl
  | cons i rest ih =>
    cases hi : i.isOk
    · rw [List.countP_cons_of_neg _ _ (by simp [hi]),
        List.countP_cons_of_pos _ _ (by simp [hi]), List.length_cons]
      have he : List.countP (fun i : Except Unit Article => i.isOk) rest =
          List.countP (Except.isOk) rest := rfl
      omega
    · rw [List.countP_cons_of_pos _ _ hi,
        List.countP_cons_of_neg _ _ (by simp [hi]), List.length_cons]
      have he : List.countP (fun i : Except Unit Article => i.isOk) rest =
          List.countP (Except.isOk) rest := rfl
      omega

/-- C3: in a batch where exactly one candidate's fetch-or-parse fails,
processing continues past the failure: the success counter is `N - 1`,
the error counter is `1`, and every successfully parsed article has a
row under its slug in the final store. -/
theorem batch_partial_failure (items : List (Except Unit Article)) (t : Nat)
    (store : List Row) (hfail : items.countP (fun i => !(i.isOk)) = 1) :
    (processBatch items t store).2.1 = items.length - 1 ∧
    (processBatch items t store).2.2 = 1 ∧
    ∀ a : Article, Except.ok a ∈ items →
      (((processBatch items t store).1).any fun r => r.article.slug == a.slug) = true := by
  have hc := processBatch_counts items t store
  have hlen := countP_ok_err items
  refine ⟨?_, ?_, ?_⟩
  · rw [hc.1]; omega
  · rw [hc.2]; exact hfail
  · intro a ha
    exact processBatch_ok_mem t items store a ha

/-- Witness for C3: a three-file batch with one failing item yields two
successes, one failure, and both good slugs in the store. -/
theorem batch_partial_failure_witness :
    (processBatch [Except.ok articleDemo, Except.error (),
        Except.ok articleDemo2] 7 []).2.1 = 2 ∧
    (processBatch [Except.ok articleDemo, Except.error (),
        Except.ok articleDemo2] 7 []).2.2 = 1 ∧
    (((processBatch [Except.ok articleDemo, Except.error (),
        Except.ok articleDemo2] 7 []).1).any
      fun r => r.article.slug == articleDemo2.slug) = true := by
  have h := batch_partial_failure [Except.ok articleDemo, Except.error (),
    Except.ok articleDemo2] 7 [] (by decide)
  exact ⟨h.1, h.2.1, h.2.2 articleDemo2 (by simp)⟩

/-! ### C1, C10 — the webhook endpoint -/

theorem processPush_no_effects (p : GitHubWebhookPayload) :
    processPushEventEffects p = [] := by
  unfold processPushEventEffects
  split
  · rfl
  · split <;> rfl

theorem processPullRequest_no_effects (p : GitHubWebhookPayload) :
    processPullRequestEventEffects p = [] := by
  unfold processPullRequestEventEffects
  split <;> rfl

theorem utf8Len_append (a b : String) :
    utf8Len (a ++ b) = utf8Len a + utf8Len b := by
  unfold utf8Len
  rw [String.data_append, List.map_append, List.sum_append]

/-- C1: the route handler never writes to the content store (the sync
trigger is a TODO that only logs), and a POST whose
`x-hub-signature-256` header is **absent** is accepted with status 200:
the guard `githubSignature && !verifyGitHubSignature(...)` skips
verification entirely when the header is missing, so the request is not
rejected with 401 as the claim requires. -/
theorem unsigned_request_accepted :
    (∀ (hmacHex : String → String → String)
        (parseJson : String → Option GitHubWebhookPayload)
        (secret : Option String) (req : RouteRequest),
        (routePOST hmacHex parseJson secret req).effects = []) ∧
    routePOST hmacDemo parseDemo (some "s3cret")
        { tenantId := "tenant1", event := some "push", signature := none,
          body := "x" } =
      { status := 200, effects := [] } := by
  constructor
  · intro hmacHex parseJson secret req
    unfold routePOST
    repeat' split
    all_goals
      simp [processPush_no_effects, processPullRequest_no_effects]
  · decide

/-- C10: a POST whose signature header is present but whose UTF-8 byte
length differs from the 71 bytes of `sha256=` plus a 64-hex-digit
digest makes `crypto.timingSafeEqual` throw (there is no length guard or
try/catch in `verifyGitHubSignature`), and the outer try/catch turns
that into a 500 Internal Server Error instead of the 401 response. -/
theorem wrong_length_signature_500
    (hmacHex : String → String → String)
    (parseJson : String → Option GitHubWebhookPayload)
    (secret sig tenant evName body : String)
    (hhex : utf8Len (hmacHex secret body) = 64)
    (hsig : sig ≠ "") (hlen : utf8Len sig ≠ 71)
    (hsecret : secret ≠ "") (htenant : ¬ tenant.length < 3)
    (hev : evName ≠ "") :
    routePOST hmacHex parseJson (some secret)
        { tenantId := tenant, event := some evName, signature := some sig,
          body := body } =
      { status := 500, effects := [] } := by
  have hver : verifyGitHubSignature hmacHex body sig secret = .error () := by
    unfold verifyGitHubSignature
    rw [if_neg (by push_neg; exact ⟨hsig, hsecret⟩)]
    rw [if_pos]
    rw [utf8Len_append]
    have h7 : utf8Len "sha256=" = 7 := by decide
    omega
  have hevT : headerTruthy (some evName) = true := by
    simp [headerTruthy, hev]
  have hsecT : headerTruthy (some secret) = true := by
    simp [headerTruthy, hsecret]
  have hsigT : headerTruthy (some sig) = true := by
    simp [headerTruthy, hsig]
  unfold routePOST
  rw [if_neg htenant]
  simp only [hevT, hsecT, hsigT, Bool.not_true, Bool.false_eq_true,
    if_false, Option.getD_some, hver]
  rfl

/-- Witness for C10 with a concrete 10-byte signature header. -/
theorem wrong_length_signature_500_witness :
    routePOST hmacDemo parseDemo (some "s3cret")
        { tenantId := "tenant1", event := some "push",
          signature := some "sha256=abc", body := "x" } =
      { status := 500, effects := [] } :=
  wrong_length_signature_500 hmacDemo parseDemo "s3cret" "sha256=abc"
    "tenant1" "push" "x" (by decide) (by decide) (by decide) (by decide)
    (by decide) (by decide)

/-! ### C4 — branch filtering -/

/-- C4 counterexample: a push event whose `ref` is the bare branch name
`main` — not `refs/heads/main` — passes the template's
`shouldProcessEvent` filter (its `replace('refs/heads/', '')` finds
nothing to strip and the comparison succeeds), and its changed content
files are fetched, so processing is not the no-op the claim requires. -/
theorem branch_filter_counterexample :
    shouldProcessPush pushBareRef = true ∧
    pushBareRef.ref ≠ "refs/heads/" ++ pushBareRef.default_branch ∧
    templatePushProcessing pushBareRef = [SyncEffect.fetch "contents/a.mdx"] :=
  ⟨by decide, by decide, by decide⟩

/-- C4 amended: a push event is a no-op (no fetch, no store write, zero
files processed) whenever its `ref` with the first `refs/heads/`
occurrence removed differs from the repository's default branch — in
particular for every `refs/heads/<other-branch>` ref; the live route's
`processPushEvent` compares the full ref against
`refs/heads/<default_branch>` exactly and performs nothing on a
mismatch.  Only a ref equal to the bare default-branch name (which the
remote never sends as a push ref) slips through the template's filter. -/
theorem branch_filter_amended (e : TemplatePushEvent) (p : GitHubWebhookPayload) :
    (jsReplaceFirst "refs/heads/" "" e.ref ≠ e.default_branch →
      shouldProcessPush e = false ∧ templatePushProcessing e = []) ∧
    (p.ref ≠ some ("refs/heads/" ++ p.repository.default_branch) →
      processPushEventEffects p = []) := by
  constructor
  · intro h
    have hs : shouldProcessPush e = false := by
      unfold shouldProcessPush
      simp [h]
    refine ⟨hs, ?_⟩
    unfold templatePushProcessing
    simp [hs]
  · intro h
    unfold processPushEventEffects
    rw [if_pos h]

/-- Witness for the amended C4: a feature-branch push is a no-op in both
the template pipeline and the live route. -/
theorem branch_filter_amended_witness :
    shouldProcessPush pushFeature = false ∧
    templatePushProcessing pushFeature = [] ∧
    processPushEventEffects payloadDemo = [] := by
  have h := branch_filter_amended pushFeature payloadDemo
  exact ⟨(h.1 (by decide)).1, (h.1 (by decide)).2, h.2 (by decide)⟩

end Cms
